import Mathlib

/-!
# Verification of the adventurelib command engine

A shallow embedding of `adventurelib.py`: the pattern compiler
(`Pattern.__init__`), the context resolver (`set_context`, `Pattern.is_active`),
the word allocator (`Pattern.word_combinations`), the matcher (`Pattern.match`),
registration (`_register`) and dispatch (`_handle_command`).

Python strings are modelled as lists of characters (`Str`); Python dicts as
insertion-ordered association lists with overwriting insertion; exceptions as
`Except`; the global `current_context` variable is passed explicitly.
-/

deriving instance DecidableEq for Except

namespace Adventurelib

/-- A Python string, modelled as its list of characters. -/
abbrev Str := List Char

/-- Shorthand to build a `Str` from a Lean string literal. -/
def strL (s : String) : Str := s.toList

/-- Python `str.isalpha()` (ASCII scope): non-empty and all letters. -/
def isalphaS (w : Str) : Bool := !w.isEmpty && w.all Char.isAlpha

/-- Python `str.isupper()` (ASCII scope): at least one cased character and
no cased character is lowercase. -/
def isupperS (w : Str) : Bool := w.any Char.isAlpha && w.all (fun c => !c.isLower)

/-- Python `str.islower()` (ASCII scope): at least one cased character and
no cased character is uppercase. -/
def islowerS (w : Str) : Bool := w.any Char.isAlpha && w.all (fun c => !c.isUpper)

/-- Python `str.lower()` (ASCII scope). -/
def lowerS (w : Str) : Str := w.map Char.toLower

/-- Python `str.split()` with no separator: split on runs of whitespace,
discarding empty words. -/
def splitWs (s : Str) : List Str :=
  (s.splitOnP Char.isWhitespace).filter (fun w => !w.isEmpty)

/-- A Python dict with `Str` keys, as an insertion-ordered association list
with unique keys maintained by `dictInsert`. -/
abbrev DictV (δ : Type) := List (Str × δ)

/-- Captured arguments: a dict from argument names to captured strings. -/
abbrev Dict := DictV Str

/-- Python `d[k] = v`: overwrite the value in place if the key is present,
otherwise append the new binding at the end. -/
def dictInsert {δ : Type} (d : DictV δ) (k : Str) (v : δ) : DictV δ :=
  if d.any (fun p => p.1 = k) then
    d.map (fun p => if p.1 = k then (k, v) else p)
  else
    d ++ [(k, v)]

/-- Python `d.get(k)`: the value bound to the first occurrence of `k`. -/
def dictLookup {δ : Type} (d : DictV δ) (k : Str) : Option δ :=
  (d.find? (fun p => p.1 = k)).map (fun p => p.2)

/-- Python `d.update(m)`: insert every binding of `m` into `d`, in order. -/
def dictUpdate {δ : Type} (d m : DictV δ) : DictV δ :=
  m.foldl (fun a p => dictInsert a p.1 p.2) d

/-- The keys of a dict, in order. -/
def dictKeys {δ : Type} (d : DictV δ) : List Str := d.map (fun p => p.1)

/-- `set_context(new_context)`: the value stored into the global
`current_context`. -/
def setContext (new_context : Str) : Str :=
  if new_context ≠ strL "default" then strL "default." ++ new_context
  else new_context

/-- A compiled token of a pattern: a literal word, or a named placeholder
(the `Placeholder` class of the source). -/
inductive Token : Type
  | lit (w : Str)
  | ph (name : Str)
  deriving DecidableEq

/-- Is this token a placeholder? -/
def Token.isPh : Token → Bool
  | .ph _ => true
  | .lit _ => false

/-- The word carried by a literal token (placeholders return their name;
only applied to literals). -/
def Token.word : Token → Str
  | .lit w => w
  | .ph n => n

/-- The error raised by the source's `InvalidCommand` exception. -/
inductive CmdError : Type
  | malformed
  | sigMismatch
  deriving DecidableEq

/-- The error raised by the source's `InvalidContext` exception. -/
inductive CtxError : Type
  | invalidContext
  deriving DecidableEq

/-- A compiled `Pattern`. The field `lead` models `self.prefix` (the longest
leading run of literal words); `pattern` models `self.pattern` (the tokens
after the leading run). -/
structure Pattern : Type where
  orig_pattern : Str
  pattern_context : Option Str
  placeholders : Nat
  argnames : List Str
  lead : List Str
  pattern : List Token
  fixed : Nat
  deriving DecidableEq

/-- The per-word classification loop of `Pattern.__init__`: build the token
list, failing on a word that is not all letters or mixes case. -/
def compileWords : List Str → Except CmdError (List Token)
  | [] => .ok []
  | w :: ws =>
    if !isalphaS w then .error .malformed
    else if isupperS w then
      match compileWords ws with
      | .error e => .error e
      | .ok ts => .ok (Token.ph (lowerS w) :: ts)
    else if islowerS w then
      match compileWords ws with
      | .error e => .error e
      | .ok ts => .ok (Token.lit w :: ts)
    else .error .malformed

/-- The loop of `Pattern.__init__` that collects `self.prefix`: the words of
the leading literal tokens. -/
def leadWords : List Token → List Str
  | Token.lit w :: rest => w :: leadWords rest
  | _ => []

/-- Count of placeholder tokens. -/
def countPh (ts : List Token) : Nat := ts.countP Token.isPh

/-- Count of literal tokens. -/
def countLit (ts : List Token) : Nat := ts.countP (fun t => !t.isPh)

/-- The placeholder names in order (the `argnames` accumulated by
`Pattern.__init__`). -/
def phNames : List Token → List Str
  | [] => []
  | Token.ph n :: rest => n :: phNames rest
  | Token.lit _ :: rest => phNames rest

/-- `Pattern.__init__(pattern, context)`: compile a template into a
`Pattern`, or raise `InvalidCommand` (modelled as `CmdError.malformed`). -/
def Pattern.compile (template : Str) (context : Option Str) :
    Except CmdError Pattern :=
  match compileWords (splitWs template) with
  | .error e => .error e
  | .ok toks =>
    let lead := leadWords toks
    .ok { orig_pattern := template
          pattern_context := context
          placeholders := countPh toks
          argnames := phNames toks
          lead := lead
          pattern := toks.drop lead.length
          fixed := (toks.drop lead.length).length - countPh toks }

/-- `Pattern.word_combinations(have, placeholders)` as the list of tuples the
generator yields, in yield order.  The source's guard order
(`have < placeholders`, `have == placeholders`, `placeholders == 1`, then the
greedy loop with inner guard `have >= placeholders - 1`) is arranged here by
arity of `placeholders` so the recursion is structural; the case
`placeholders = 0 < have`, which in Python wanders into calls with negative
arguments and is unreachable from the matcher, is the empty sequence. -/
def wordCombinations : Nat → Nat → List (List Nat)
  | h, 0 => if h = 0 then [[]] else []
  | h, 1 => if h = 0 then [] else [[h]]
  | h, p + 2 =>
    if h < p + 2 then []
    else if h = p + 2 then [List.replicate (p + 2) 1]
    else
      ((List.range (h - (p + 1))).reverse.map (fun i => i + 1)).flatMap
        (fun take =>
          if p + 1 ≤ h then
            (wordCombinations (h - take) (p + 1)).map (fun b => take :: b)
          else [])

/-- `Pattern.is_active()`, with the global `current_context` passed
explicitly. -/
def Pattern.is_active (p : Pattern) (current_context : Option Str) :
    Except CtxError Bool :=
  match current_context with
  | none => .error .invalidContext
  | some cur =>
    match p.pattern_context with
    | none => .ok false
    | some ctx =>
      let context := if ctx ≠ strL "default" then strL "default." ++ ctx else ctx
      if context = cur then .ok true
      else
        let uppercontext := context ++ [('.' : Char)]
        if uppercontext = cur.take (context.length + 1) then .ok true
        else .ok false

/-- Python `' '.join(ws)`. -/
def joinSpaces (ws : List Str) : Str := List.intercalate [(' ' : Char)] ws

/-- The inner loop of `Pattern.match` for one allocation tuple: walk the
post-prefix tokens, a placeholder consuming its allotted count of input words
and a literal consuming one word that must equal it.  `none` models both a
literal mismatch (`break`) and iterator exhaustion (`StopIteration`); when the
tokens run out the accumulated captures are returned, as in the source's
`for`/`else`. -/
def tryCombo : List Token → List Nat → List Str → DictV (List Str) →
    Option (DictV (List Str))
  | [], _, _, acc => some acc
  | Token.ph name :: toks, combo, inp, acc =>
    match combo with
    | [] => none
    | count :: combo' =>
      if count ≤ inp.length then
        tryCombo toks combo' (inp.drop count)
          (dictInsert acc name (inp.take count))
      else none
  | Token.lit w :: toks, combo, inp, acc =>
    match inp with
    | [] => none
    | word :: inp' => if w = word then tryCombo toks combo inp' acc else none

/-- The final dict comprehension of `Pattern.match`: join each captured word
list with single spaces. -/
def finalizeCaptures (d : DictV (List Str)) : Dict :=
  d.map (fun kv => (kv.1, joinSpaces kv.2))

/-- `Pattern.match(input_words)` (named `matchCmd`: `match` is a Lean
keyword), with the global `current_context` passed explicitly.  Returns
`some` captures on a match, `none` for no-match, or the `InvalidContext`
error from `is_active`. -/
def Pattern.matchCmd (p : Pattern) (current_context : Option Str)
    (input_words : List Str) : Except CtxError (Option Dict) :=
  match p.is_active current_context with
  | .error e => .error e
  | .ok false => .ok none
  | .ok true =>
    if input_words.length < p.argnames.length then .ok none
    else if input_words.take p.lead.length ≠ p.lead then .ok none
    else
      let iw := input_words.drop p.lead.length
      if iw.isEmpty && p.pattern.isEmpty then .ok (some [])
      else if iw.isEmpty != p.pattern.isEmpty then .ok none
      else
        .ok ((wordCombinations (iw.length - p.fixed) p.placeholders).findSome?
          (fun combo => (tryCombo p.pattern combo iw []).map finalizeCaptures))

/-- A registry entry: `(pattern, func, kwargs)`, the handler represented by
an opaque identifier. -/
structure Entry : Type where
  pattern : Pattern
  handler : Nat
  kwargs : Dict
  deriving DecidableEq

/-- Order-independent equality of name sets, as Python's
`set(a) == set(b)`. -/
def sameSet (a b : List Str) : Bool :=
  a.all (fun x => b.contains x) && b.all (fun x => a.contains x)

/-- `_register(command, func, context, kwargs)`: compile the pattern, check
the handler's parameter-name set against pattern argnames plus kwargs keys,
and append one entry.  `funcParams` models `set(inspect.signature(func).parameters)`. -/
def register (commands : List Entry) (command : Str) (funcParams : List Str)
    (handler : Nat) (context : Option Str) (kwargs : Dict) :
    Except CmdError (List Entry) :=
  match Pattern.compile command context with
  | .error e => .error e
  | .ok p =>
    if sameSet funcParams (p.argnames ++ dictKeys kwargs) then
      .ok (commands ++ [{ pattern := p, handler := handler, kwargs := kwargs }])
    else .error .sigMismatch

/-- What one dispatched line results in: the chosen handler with its merged
arguments, or the unmatched-command collaborator applied to the raw line. -/
inductive Outcome : Type
  | handled (handler : Nat) (args : Dict)
  | unmatched (raw : Str)
  deriving DecidableEq

/-- The `for`/`else` loop of `_handle_command`: first entry whose pattern
matches wins; `none` when no entry matches. -/
def handleLoop (current_context : Str) (ws : List Str) :
    List Entry → Except CtxError (Option (Nat × Dict))
  | [] => .ok none
  | e :: rest =>
    match e.pattern.matchCmd (some current_context) ws with
    | .error x => .error x
    | .ok none => handleLoop current_context ws rest
    | .ok (some m) => .ok (some (e.handler, dictUpdate e.kwargs m))

/-- `_handle_command(cmd)`: lowercase, split, walk the registry, invoke the
first match (with kwargs updated by the captures) or the unmatched-command
collaborator. -/
def handleCommand (commands : List Entry) (current_context : Str)
    (cmd : Str) : Except CtxError Outcome :=
  match handleLoop current_context (splitWs (lowerS cmd)) commands with
  | .error x => .error x
  | .ok none => .ok (.unmatched cmd)
  | .ok (some (h, args)) => .ok (.handled h args)

/-- Modelled from the spec: qualifying a context path under the root —
`"default"` stays `"default"`, any other context `c` becomes
`"default." ++ c`. -/
def qualify (c : Str) : Str :=
  if c = strL "default" then c else strL "default." ++ c

/-- Modelled from the spec (refinement side of C1): one allocation attempt.
Walk the remaining compiled tokens left to right: a placeholder consumes the
next `N` words (its tuple entry) and joins them with single spaces; a literal
consumes exactly one input word and must equal it.  The attempt succeeds iff
every token is consumed with the input exhausted in lockstep. -/
def tryAllocSpec : List Token → List Nat → List Str → Dict → Option Dict
  | [], _, inp, acc => if inp.isEmpty then some acc else none
  | Token.ph name :: toks, counts, inp, acc =>
    match counts with
    | [] => none
    | n :: counts' =>
      if n ≤ inp.length then
        tryAllocSpec toks counts' (inp.drop n)
          (dictInsert acc name (joinSpaces (inp.take n)))
      else none
  | Token.lit w :: toks, counts, inp, acc =>
    match inp with
    | [] => none
    | word :: inp' => if w = word then tryAllocSpec toks counts inp' acc else none

/-- Modelled from the spec (refinement side of C6): classify one word of a
template that compilation accepts — an all-lowercase word is a literal, an
all-uppercase word a placeholder named by the lowercased word. -/
def specToken (w : Str) : Token :=
  if w.all Char.isLower then Token.lit w else Token.ph (lowerS w)

/-- The compiled pattern of the built-in `quit` entry. -/
def quitPattern : Pattern :=
  { orig_pattern := strL "quit"
    pattern_context := some (strL "default")
    placeholders := 0
    argnames := []
    lead := [strL "quit"]
    pattern := []
    fixed := 0 }

/-- The compiled pattern `Pattern('help')` used by `start`. -/
def helpPattern : Pattern :=
  { orig_pattern := strL "help"
    pattern_context := some (strL "default")
    placeholders := 0
    argnames := []
    lead := [strL "help"]
    pattern := []
    fixed := 0 }

/-- The synthetic `?` pattern built by `start`: `Pattern('help')` with its
prefix and original text overwritten to `?`. -/
def qmarkPattern : Pattern :=
  { helpPattern with lead := [strL "?"], orig_pattern := strL "?" }

/-- The handler identifier standing for `sys.exit`. -/
def sysExitHandler : Nat := 0

/-- The handler identifier standing for the built-in `help` function. -/
def helpHandler : Nat := 1

/-- The module-level initial value of `commands`: the built-in quit entry. -/
def initialCommands : List Entry :=
  [{ pattern := quitPattern, handler := sysExitHandler, kwargs := [] }]

/-- The registry reordering done by `start(help=...)`: when help is enabled,
`commands.insert(0, help)` then `commands.insert(0, qmark)` put the `?`
shortcut first and the full `help` word second, ahead of everything else. -/
def startCommands (helpEnabled : Bool) (commands : List Entry) : List Entry :=
  if helpEnabled then
    { pattern := qmarkPattern, handler := helpHandler, kwargs := [] } ::
    { pattern := helpPattern, handler := helpHandler, kwargs := [] } ::
    commands
  else commands

/-- The compiled pattern of `"put ITEM in CONTAINER"` (the spec's worked
example). -/
def putPattern : Pattern :=
  { orig_pattern := strL "put ITEM in CONTAINER"
    pattern_context := some (strL "default")
    placeholders := 2
    argnames := [strL "item", strL "container"]
    lead := [strL "put"]
    pattern := [Token.ph (strL "item"), Token.lit (strL "in"),
                Token.ph (strL "container")]
    fixed := 1 }

/-- The compiled pattern of `"take ITEM"`. -/
def takeItemPattern : Pattern :=
  { orig_pattern := strL "take ITEM"
    pattern_context := some (strL "default")
    placeholders := 1
    argnames := [strL "item"]
    lead := [strL "take"]
    pattern := [Token.ph (strL "item")]
    fixed := 0 }

-- Sanity examples (the spec's worked examples).
example : wordCombinations 6 2 = [[5, 1], [4, 2], [3, 3], [2, 4], [1, 5]] := by
  decide

example :
    (Pattern.compile (strL "take ITEM") (some (strL "default"))).map
      Pattern.argnames = .ok [strL "item"] := by decide

example :
    (Pattern.compile (strL "put ITEM in CONTAINER")
        (some (strL "default"))).map
      (fun p => p.matchCmd (some (strL "default"))
        [strL "put", strL "a", strL "rusty", strL "key", strL "in",
         strL "the", strL "old", strL "chest"]) =
    .ok (.ok (some [(strL "item", strL "a rusty key"),
                    (strL "container", strL "the old chest")])) := by decide

/-! ## The word allocator (`Pattern.word_combinations`) -/

theorem wc_zero (h : Nat) : wordCombinations h 0 = if h = 0 then [[]] else [] :=
  rfl

theorem wc_one (h : Nat) : wordCombinations h 1 = if h = 0 then [] else [[h]] :=
  rfl

theorem wc_succ2 (h p : Nat) :
    wordCombinations h (p + 2) =
      if h < p + 2 then []
      else if h = p + 2 then [List.replicate (p + 2) 1]
      else
        ((List.range (h - (p + 1))).reverse.map (fun i => i + 1)).flatMap
          (fun take =>
            if p + 1 ≤ h then
              (wordCombinations (h - take) (p + 1)).map (fun b => take :: b)
            else []) := rfl

/-- Membership in the greedy loop's list of `take` values. -/
theorem mem_takes {t n : Nat} :
    t ∈ (List.range n).reverse.map (fun i => i + 1) ↔ 1 ≤ t ∧ t ≤ n := by
  simp only [List.mem_map, List.mem_reverse, List.mem_range]
  constructor
  · rintro ⟨i, hi, rfl⟩; omega
  · rintro ⟨h1, h2⟩; exact ⟨t - 1, by omega, by omega⟩

/-- The diagonal case: a budget equal to the placeholder count forces the
all-ones tuple. -/
theorem wc_self (k : Nat) : wordCombinations k k = [List.replicate k 1] := by
  match k with
  | 0 => rfl
  | 1 => rfl
  | p + 2 => rw [wc_succ2, if_neg (by omega), if_pos rfl]

/-- Infeasible case: fewer words than placeholders yields nothing. -/
theorem wc_nil_of_lt {h p : Nat} (hlt : h < p) : wordCombinations h p = [] := by
  match p with
  | 0 => omega
  | 1 => rw [wc_one, if_pos (by omega)]
  | p' + 2 => rw [wc_succ2, if_pos hlt]

/-- Every yielded tuple has length `placeholders`, entries `≥ 1`, and sums
to `have`. -/
theorem wc_mem_spec :
    ∀ p h c, c ∈ wordCombinations h p →
      c.length = p ∧ c.sum = h ∧ ∀ x ∈ c, 1 ≤ x := by
  intro p
  induction p using Nat.strong_induction_on with
  | _ p ih =>
    match p with
    | 0 =>
      intro h c hc
      rw [wc_zero] at hc
      split at hc
      · next h0 => simp only [List.mem_singleton] at hc; subst hc; simp [h0]
      · simp at hc
    | 1 =>
      intro h c hc
      rw [wc_one] at hc
      split at hc
      · simp at hc
      · next h0 =>
        simp only [List.mem_singleton] at hc; subst hc
        refine ⟨rfl, by simp, ?_⟩
        intro x hx; simp only [List.mem_singleton] at hx; omega
    | p' + 2 =>
      intro h c hc
      rw [wc_succ2] at hc
      split at hc
      · simp at hc
      · split at hc
        · next heq =>
          simp only [List.mem_singleton] at hc; subst hc
          refine ⟨by simp, ?_, ?_⟩
          · simp [List.sum_const_nat, heq]
          · intro x hx
            have := List.eq_of_mem_replicate hx
            omega
        · next hlt heq =>
          simp only [List.mem_flatMap] at hc
          obtain ⟨t, ht, hc'⟩ := hc
          rw [if_pos (by omega)] at hc'
          simp only [List.mem_map] at hc'
          obtain ⟨b, hb, rfl⟩ := hc'
          obtain ⟨ht1, ht2⟩ := mem_takes.mp ht
          obtain ⟨hbl, hbs, hbp⟩ := ih (p' + 1) (by omega) (h - t) b hb
          refine ⟨by simp [hbl], ?_, ?_⟩
          · simp only [List.sum_cons, hbs]; omega
          · intro x hx
            rcases List.mem_cons.mp hx with rfl | hx'
            · omega
            · exact hbp x hx'

/-- Bridge a list sum over `List.range` to a `Finset.range` sum. -/
theorem list_sum_range (f : Nat → Nat) (n : Nat) :
    ((List.range n).map f).sum = ∑ i ∈ Finset.range n, f i := by
  induction n with
  | zero => simp
  | succ n ihn =>
    rw [List.range_succ, List.map_append, List.sum_append,
      Finset.sum_range_succ, ihn]
    simp

/-- The number of yielded tuples is the binomial coefficient
`C(have - 1, placeholders - 1)`, away from the degenerate point
`have = 0, placeholders = 1`. -/
theorem wc_length :
    ∀ p h, 1 ≤ p → ¬(h = 0 ∧ p = 1) →
      (wordCombinations h p).length = Nat.choose (h - 1) (p - 1) := by
  intro p
  induction p using Nat.strong_induction_on with
  | _ p ih =>
    match p with
    | 0 =>
      intro h hp _
      omega
    | 1 =>
      intro h _ hnz
      rw [wc_one, if_neg (by tauto)]
      simp
    | p' + 2 =>
      intro h _ _
      rw [wc_succ2]
      by_cases h1 : h < p' + 2
      · rw [if_pos h1]
        rw [Nat.choose_eq_zero_of_lt (by omega)]
        rfl
      · rw [if_neg h1]
        by_cases h2 : h = p' + 2
        · rw [if_pos h2, h2]
          simp [Nat.choose_self]
        · rw [if_neg h2]
          have hg : p' + 1 ≤ h := by omega
          have hlen : ∀ (l : List Nat) (f : Nat → List (List Nat)),
              (l.flatMap f).length = (l.map (fun a => (f a).length)).sum := by
            intro l f
            induction l with
            | nil => rfl
            | cons a l ihl =>
              rw [List.flatMap_cons, List.length_append, ihl, List.map_cons,
                List.sum_cons]
          rw [hlen]
          rw [List.map_congr_left (g := fun t =>
              Nat.choose (h - t - 1) p') ?_]
          · rw [List.map_reverse, List.map_reverse, List.sum_reverse,
              List.map_map]
            have hb : ((List.range (h - (p' + 1))).map
                (fun i => Nat.choose (h - (i + 1) - 1) p')).sum =
                ∑ i ∈ Finset.range (h - (p' + 1)),
                  Nat.choose (h - (i + 1) - 1) p' := by
              rw [← list_sum_range]
            simp only [Function.comp_def]
            rw [hb, ← Finset.sum_range_reflect]
            have hre : ∀ i ∈ Finset.range (h - (p' + 1)),
                Nat.choose (h - (h - (p' + 1) - 1 - i + 1) - 1) p' =
                  Nat.choose (i + p') p' := by
              intro i hi
              rw [Finset.mem_range] at hi
              congr 1
              omega
            rw [Finset.sum_congr rfl hre]
            rw [show h - (p' + 1) = (h - (p' + 2)) + 1 from by omega,
              Nat.sum_range_add_choose]
            congr 1
            omega
          · intro t ht
            rw [if_pos hg, List.length_map]
            obtain ⟨ht1, ht2⟩ := mem_takes.mp ht
            rw [ih (p' + 1) (by omega) (h - t) (by omega) (by omega)]
            rfl

/-- The first yielded tuple is maximally front-loaded:
`(have - placeholders + 1, 1, …, 1)`. -/
theorem wc_head :
    ∀ p h, 1 ≤ p → p ≤ h →
      (wordCombinations h p).head? =
        some ((h - p + 1) :: List.replicate (p - 1) 1) := by
  intro p
  match p with
  | 0 =>
    intro h h1 _
    omega
  | 1 =>
    intro h _ hle
    rw [wc_one, if_neg (by omega)]
    simp only [List.head?_cons, Option.some.injEq]
    congr 1
    omega
  | p' + 2 =>
    intro h _ hle
    by_cases h2 : h = p' + 2
    · rw [h2, wc_self]
      simp only [List.head?_cons, Option.some.injEq]
      rw [show p' + 2 - (p' + 2) + 1 = 1 from by omega,
        show List.replicate (p' + 2) 1 = 1 :: List.replicate (p' + 1) 1
          from rfl]
      rfl
    · have hn : h - (p' + 1) = (h - (p' + 2)) + 1 := by omega
      have hm : h - (h - (p' + 2) + 1) = p' + 1 := by omega
      have hh : h - (p' + 2) + 1 = h - (p' + 2) + 1 := rfl
      rw [wc_succ2, if_neg (by omega), if_neg h2]
      rw [hn, List.range_succ, List.reverse_append]
      simp only [List.reverse_cons, List.reverse_nil, List.nil_append,
        List.map_cons, List.map_nil, List.map_append, List.cons_append,
        List.flatMap_cons]
      rw [if_pos (by omega), hm, wc_self]
      simp only [List.map_cons, List.map_nil, List.cons_append,
        List.head?_cons, Option.some.injEq]
      rfl

/-- The tuples appear in strictly decreasing lexicographic order. -/
theorem wc_sorted :
    ∀ p h, List.Pairwise (fun a b => List.Lex (· < ·) b a)
      (wordCombinations h p) := by
  intro p
  induction p using Nat.strong_induction_on with
  | _ p ih =>
    match p with
    | 0 =>
      intro h
      rw [wc_zero]
      split <;> simp
    | 1 =>
      intro h
      rw [wc_one]
      split <;> simp
    | p' + 2 =>
      intro h
      rw [wc_succ2]
      split
      · simp
      · split
        · simp
        · next hlt heq =>
          rw [List.flatMap]
          rw [List.pairwise_flatten]
          constructor
          · intro l hl
            simp only [List.mem_map] at hl
            obtain ⟨t, ht, rfl⟩ := hl
            rw [if_pos (by omega)]
            rw [List.pairwise_map]
            exact (ih (p' + 1) (by omega) (h - t)).imp
              (fun hab => List.Lex.cons hab)
          · rw [List.pairwise_map]
            have hdec : List.Pairwise (fun a b => b < a)
                ((List.range (h - (p' + 1))).reverse.map (fun i => i + 1)) := by
              rw [List.pairwise_map, List.pairwise_reverse]
              exact (List.pairwise_lt_range _).imp (fun hab => by omega)
            refine hdec.imp ?_
            intro a b hba x hx y hy
            rw [if_pos (by omega)] at hx hy
            simp only [List.mem_map] at hx hy
            obtain ⟨xa, _, rfl⟩ := hx
            obtain ⟨ya, _, rfl⟩ := hy
            exact List.Lex.rel hba

/-! ## The context resolver (`set_context`, `Pattern.is_active`) -/

theorem is_active_none_current (p : Pattern) :
    p.is_active none = .error .invalidContext := rfl

theorem is_active_none_context (p : Pattern) (cur : Str)
    (hp : p.pattern_context = none) : p.is_active (some cur) = .ok false := by
  simp [Pattern.is_active, hp]

/-- Characterization of `is_active` for a pattern with a declared context:
active iff the current context equals the qualified path or is a strict
descendant of it. -/
theorem is_active_some (p : Pattern) (ctx cur : Str)
    (hp : p.pattern_context = some ctx) :
    p.is_active (some cur) =
      .ok (decide (cur = qualify ctx ∨
        (qualify ctx ++ [('.' : Char)]) <+: cur)) := by
  have hq : (if ctx ≠ strL "default" then strL "default." ++ ctx else ctx) =
      qualify ctx := by
    rw [qualify]
    by_cases hc : ctx = strL "default" <;> simp [hc]
  simp only [Pattern.is_active, hp]
  rw [hq]
  by_cases h1 : qualify ctx = cur
  · rw [if_pos h1]
    simp [h1]
  · rw [if_neg h1]
    by_cases h2 : qualify ctx ++ [('.' : Char)] =
        cur.take ((qualify ctx).length + 1)
    · rw [if_pos h2]
      have hpre : (qualify ctx ++ [('.' : Char)]) <+: cur := by
        rw [List.prefix_iff_eq_take]
        simpa [List.length_append] using h2
      simp [hpre]
    · rw [if_neg h2]
      have hnp : ¬ ((qualify ctx ++ [('.' : Char)]) <+: cur) := by
        rw [List.prefix_iff_eq_take]
        simpa [List.length_append] using h2
      have hne : ¬ (cur = qualify ctx) := fun hcc => h1 (by rw [hcc])
      simp [hne, hnp]

/-! ## Claim theorems (allocator and context) -/

/-- C2 (amended): for `have ≥ 0`, `placeholders ≥ 1`, `word_combinations`
yields only tuples of length `placeholders` with entries `≥ 1` summing to
`have`; yields nothing when `have < placeholders`; the number of tuples is
`C(have−1, placeholders−1)` except at the single degenerate point
`have = 0, placeholders = 1` (where nothing is yielded although the
truncated binomial is 1); the first tuple's leading entry is
`have − placeholders + 1`; and the tuples appear in strictly decreasing
lexicographic order. -/
theorem claim_C2 (hav placeholders : Nat) (hp : 1 ≤ placeholders) :
    (∀ c ∈ wordCombinations hav placeholders,
        c.length = placeholders ∧ c.sum = hav ∧ ∀ x ∈ c, 1 ≤ x)
    ∧ (hav < placeholders → wordCombinations hav placeholders = [])
    ∧ (¬(hav = 0 ∧ placeholders = 1) →
        (wordCombinations hav placeholders).length =
          Nat.choose (hav - 1) (placeholders - 1))
    ∧ (∀ c, (wordCombinations hav placeholders).head? = some c →
        c.head? = some (hav - placeholders + 1))
    ∧ List.Pairwise (fun a b => List.Lex (· < ·) b a)
        (wordCombinations hav placeholders) := by
  refine ⟨fun c hc => wc_mem_spec placeholders hav c hc,
    fun hlt => wc_nil_of_lt hlt,
    fun hnz => wc_length placeholders hav hp hnz,
    ?_, wc_sorted placeholders hav⟩
  intro c hc
  have hle : placeholders ≤ hav := by
    by_contra hgt
    rw [wc_nil_of_lt (by omega)] at hc
    simp at hc
  rw [wc_head placeholders hav hp hle] at hc
  injection hc with hc
  rw [← hc]
  rfl

/-- C2, counterexample to the claim as stated: at `have = 0`,
`placeholders = 1` the allocator yields nothing, but
`C(have−1, placeholders−1) = C(−1, 0) = 1` (both under the truncated
natural-subtraction reading and under the generalized binomial
convention). -/
theorem claim_C2_counterexample :
    (wordCombinations 0 1).length ≠ Nat.choose (0 - 1) (1 - 1) := by decide

/-- C2 witness: the amended count conjunct evaluated at `have = 6`,
`placeholders = 2`. -/
theorem claim_C2_witness :
    (wordCombinations 6 2).length = Nat.choose (6 - 1) (2 - 1) :=
  (claim_C2 6 2 (by decide)).2.2.1 (by decide)

/-- C3 (confirmed): `is_active` fails with Invalid-Context when the current
context is unset; a pattern with no context is never active; otherwise the
pattern is active iff the current context equals the qualified context path
or is a strict descendant of it (qualified path plus a dot as a prefix).
Hence a pattern with context `"shop"` is active after `set_context("shop")`
or `set_context("shop.register")`, and inactive at the root `"default"`. -/
theorem claim_C3 :
    (∀ p : Pattern, p.is_active none = .error .invalidContext)
    ∧ (∀ (p : Pattern) (cur : Str), p.pattern_context = none →
        p.is_active (some cur) = .ok false)
    ∧ (∀ (p : Pattern) (ctx cur : Str), p.pattern_context = some ctx →
        p.is_active (some cur) =
          .ok (decide (cur = qualify ctx ∨
            (qualify ctx ++ [('.' : Char)]) <+: cur)))
    ∧ (∀ p : Pattern, p.pattern_context = some (strL "shop") →
        p.is_active (some (setContext (strL "shop"))) = .ok true
        ∧ p.is_active (some (setContext (strL "shop.register"))) = .ok true
        ∧ p.is_active (some (strL "default")) = .ok false) := by
  refine ⟨fun p => is_active_none_current p,
    fun p cur hp => is_active_none_context p cur hp,
    fun p ctx cur hp => is_active_some p ctx cur hp, ?_⟩
  intro p hp
  refine ⟨?_, ?_, ?_⟩ <;> rw [is_active_some p (strL "shop") _ hp] <;> decide

/-- C3 witness: a pattern whose context is `"shop"` is active when the
current context was set by `set_context("shop.register")`. -/
theorem claim_C3_witness :
    ({ quitPattern with pattern_context := some (strL "shop") } :
      Pattern).is_active (some (setContext (strL "shop.register"))) =
      .ok true :=
  (claim_C3.2.2.2 _ rfl).2.1

/-- C10 (confirmed): `set_context(c)` stores `"default"` for `c = "default"`
and `"default." ++ c` otherwise; the stored value always equals `"default"`
or starts with `"default."` (and the initial value does too); and
`set_context("default.shop")` yields `"default.default.shop"`, not
`"default.shop"`. -/
theorem claim_C10 :
    (∀ c : Str, setContext c =
        if c = strL "default" then strL "default" else strL "default." ++ c)
    ∧ (strL "default" = strL "default" ∨ strL "default." <+: strL "default")
    ∧ (∀ prev c : Str,
        (prev = strL "default" ∨ strL "default." <+: prev) →
        (setContext c = strL "default" ∨ strL "default." <+: setContext c))
    ∧ setContext (strL "default.shop") = strL "default.default.shop"
    ∧ setContext (strL "default.shop") ≠ strL "default.shop" := by
  refine ⟨?_, Or.inl rfl, ?_, by decide, by decide⟩
  · intro c
    rw [setContext]
    by_cases hc : c = strL "default" <;> simp [hc]
  · intro prev c _
    rw [setContext]
    by_cases hc : c = strL "default"
    · rw [if_neg (by simp [hc])]
      exact Or.inl hc
    · rw [if_pos (by simp [hc])]
      exact Or.inr (List.prefix_append _ _)

/-- C10 witness: the invariant is preserved across a `set_context` call from
the initial root context. -/
theorem claim_C10_witness :
    setContext (strL "shop") = strL "default" ∨
      strL "default." <+: setContext (strL "shop") :=
  claim_C10.2.2.1 (strL "default") (strL "shop") (Or.inl rfl)

/-! ## The pattern compiler (`Pattern.__init__`) -/

theorem splitWs_ne_nil {s : Str} : ∀ w ∈ splitWs s, w ≠ [] := by
  intro w hw
  rw [splitWs, List.mem_filter] at hw
  simpa using hw.2

theorem isalphaS_chars {w : Str} (h : isalphaS w = true) :
    w ≠ [] ∧ ∀ c ∈ w, c.isAlpha = true := by
  rw [isalphaS, Bool.and_eq_true, List.all_eq_true] at h
  refine ⟨?_, h.2⟩
  intro hnil
  subst hnil
  simp at h

/-- A letter that is not uppercase is lowercase (`isAlpha` is definitionally
`isUpper || isLower`). -/
theorem alpha_not_upper (c : Char) (ha : c.isAlpha = true)
    (hu : c.isUpper = false) : c.isLower = true := by
  rw [show c.isAlpha = (c.isUpper || c.isLower) from rfl] at ha
  rw [hu] at ha
  simpa using ha

/-- A letter that is not lowercase is uppercase. -/
theorem alpha_not_lower (c : Char) (ha : c.isAlpha = true)
    (hl : c.isLower = false) : c.isUpper = true := by
  rw [show c.isAlpha = (c.isUpper || c.isLower) from rfl] at ha
  rw [hl] at ha
  simpa using ha

/-- An `isupper` word is not all-lowercase. -/
theorem isupperS_not_all_lower {w : Str} (h : isupperS w = true) :
    w.all Char.isLower = false := by
  rw [isupperS, Bool.and_eq_true, List.any_eq_true] at h
  obtain ⟨⟨c, hc, hca⟩, hall⟩ := h
  rw [List.all_eq_true] at hall
  have hcl := hall c hc
  rw [Bool.not_eq_eq_eq_not, Bool.not_true] at hcl
  rw [Bool.eq_false_iff]
  intro hwall
  rw [List.all_eq_true] at hwall
  rw [hwall c hc] at hcl
  cases hcl

/-- An alphabetic `islower` word is all-lowercase. -/
theorem islowerS_all_lower {w : Str} (ha : isalphaS w = true)
    (h : islowerS w = true) : w.all Char.isLower = true := by
  rw [List.all_eq_true]
  intro c hc
  rw [islowerS, Bool.and_eq_true, List.all_eq_true] at h
  have hcu := h.2 c hc
  rw [Bool.not_eq_eq_eq_not, Bool.not_true] at hcu
  exact alpha_not_upper c ((isalphaS_chars ha).2 c hc) hcu

/-- On an `isupper` word the spec-side classification gives the placeholder
token. -/
theorem specToken_upper {w : Str} (h : isupperS w = true) :
    specToken w = Token.ph (lowerS w) := by
  rw [specToken, isupperS_not_all_lower h]
  rfl

/-- On an alphabetic `islower` word the spec-side classification gives the
literal token. -/
theorem specToken_lower {w : Str} (ha : isalphaS w = true)
    (h : islowerS w = true) : specToken w = Token.lit w := by
  rw [specToken, islowerS_all_lower ha h]
  rfl

/-- Success of the classification loop: the tokens are the word-wise
spec-side classification, and every word is alphabetic and case-uniform. -/
theorem compileWords_ok :
    ∀ ws toks, compileWords ws = .ok toks →
      toks = ws.map specToken ∧
      ∀ w ∈ ws, isalphaS w = true ∧
        (isupperS w = true ∨ islowerS w = true) := by
  intro ws
  induction ws with
  | nil =>
    intro toks h
    cases h
    exact ⟨rfl, by simp⟩
  | cons w ws ihw =>
    intro toks h
    rw [compileWords] at h
    by_cases hA : isalphaS w = true
    · rw [hA] at h
      simp only [Bool.not_true, Bool.false_eq_true, if_false] at h
      by_cases hU : isupperS w = true
      · rw [if_pos hU] at h
        cases hcw : compileWords ws with
        | error e => rw [hcw] at h; cases h
        | ok ts =>
          rw [hcw] at h
          cases h
          obtain ⟨hts, hgood⟩ := ihw ts hcw
          refine ⟨?_, ?_⟩
          · rw [List.map_cons, ← hts, specToken_upper hU]
          · intro v hv
            rcases List.mem_cons.mp hv with rfl | hv'
            · exact ⟨hA, Or.inl hU⟩
            · exact hgood v hv'
      · rw [if_neg hU] at h
        by_cases hL : islowerS w = true
        · rw [if_pos hL] at h
          cases hcw : compileWords ws with
          | error e => rw [hcw] at h; cases h
          | ok ts =>
            rw [hcw] at h
            cases h
            obtain ⟨hts, hgood⟩ := ihw ts hcw
            refine ⟨?_, ?_⟩
            · rw [List.map_cons, ← hts, specToken_lower hA hL]
            · intro v hv
              rcases List.mem_cons.mp hv with rfl | hv'
              · exact ⟨hA, Or.inr hL⟩
              · exact hgood v hv'
        · rw [if_neg hL] at h
          cases h
    · rw [Bool.eq_false_iff.mpr hA] at h
      simp only [Bool.not_false, if_true] at h
      cases h

/-- The classification loop only ever raises the malformed-command error. -/
theorem compileWords_error_eq :
    ∀ ws e, compileWords ws = .error e → e = .malformed := by
  intro ws
  induction ws with
  | nil => intro e h; cases h
  | cons w ws ihw =>
    intro e h
    rw [compileWords] at h
    by_cases hA : isalphaS w = true
    · rw [hA] at h
      simp only [Bool.not_true, Bool.false_eq_true, if_false] at h
      by_cases hU : isupperS w = true
      · rw [if_pos hU] at h
        cases hcw : compileWords ws with
        | error e' =>
          rw [hcw] at h
          cases h
          exact ihw _ hcw
        | ok ts => rw [hcw] at h; cases h
      · rw [if_neg hU] at h
        by_cases hL : islowerS w = true
        · rw [if_pos hL] at h
          cases hcw : compileWords ws with
          | error e' =>
            rw [hcw] at h
            cases h
            exact ihw _ hcw
          | ok ts => rw [hcw] at h; cases h
        · rw [if_neg hL] at h
          cases h
          rfl
    · rw [Bool.eq_false_iff.mpr hA] at h
      simp only [Bool.not_false, if_true] at h
      cases h
      rfl

/-- Failure of the classification loop: exactly when some word is not
alphabetic-and-case-uniform. -/
theorem compileWords_error_iff :
    ∀ ws, compileWords ws = .error .malformed ↔
      ∃ w ∈ ws, ¬(isalphaS w = true ∧
        (isupperS w = true ∨ islowerS w = true)) := by
  intro ws
  induction ws with
  | nil =>
    constructor
    · intro h; cases h
    · rintro ⟨w, hw, -⟩; cases hw
  | cons w ws ihw =>
    rw [compileWords]
    by_cases hA : isalphaS w = true
    · rw [hA]
      simp only [Bool.not_true, Bool.false_eq_true, if_false]
      by_cases hU : isupperS w = true
      · rw [if_pos hU]
        cases hcw : compileWords ws with
        | error e =>
          cases compileWords_error_eq ws e hcw
          simp only [true_iff]
          obtain ⟨v, hv, hbad⟩ := ihw.mp hcw
          exact ⟨v, List.mem_cons_of_mem _ hv, hbad⟩
        | ok ts =>
          simp only [reduceCtorEq, false_iff]
          rintro ⟨v, hv, hbad⟩
          rcases List.mem_cons.mp hv with rfl | hv'
          · exact hbad ⟨hA, Or.inl hU⟩
          · exact (hcw ▸ ihw.symm.mp ⟨v, hv', hbad⟩ : _ = _) |> fun hh =>
              by cases hh
      · rw [if_neg hU]
        by_cases hL : islowerS w = true
        · rw [if_pos hL]
          cases hcw : compileWords ws with
          | error e =>
            cases compileWords_error_eq ws e hcw
            simp only [true_iff]
            obtain ⟨v, hv, hbad⟩ := ihw.mp hcw
            exact ⟨v, List.mem_cons_of_mem _ hv, hbad⟩
          | ok ts =>
            simp only [reduceCtorEq, false_iff]
            rintro ⟨v, hv, hbad⟩
            rcases List.mem_cons.mp hv with rfl | hv'
            · exact hbad ⟨hA, Or.inr hL⟩
            · exact (hcw ▸ ihw.symm.mp ⟨v, hv', hbad⟩ : _ = _) |> fun hh =>
                by cases hh
        · rw [if_neg hL]
          simp only [true_iff]
          exact ⟨w, List.mem_cons_self _ _, fun hcon => by tauto⟩
    · rw [Bool.eq_false_iff.mpr hA]
      simp only [Bool.not_false, if_true, true_iff]
      exact ⟨w, List.mem_cons_self _ _, fun hcon => hA hcon.1⟩

theorem leadWords_map_lit (toks : List Token) :
    (leadWords toks).map Token.lit = toks.takeWhile (fun t => !t.isPh) := by
  induction toks with
  | nil => rfl
  | cons t rest ih =>
    cases t with
    | lit w => simp only [leadWords, List.map_cons, List.takeWhile_cons]; rw [ih]; rfl
    | ph n => rfl

theorem pattern_drop_eq_dropWhile (toks : List Token) :
    toks.drop (leadWords toks).length =
      toks.dropWhile (fun t => !t.isPh) := by
  have hlen : (leadWords toks).length =
      (toks.takeWhile (fun t => !t.isPh)).length := by
    rw [← leadWords_map_lit, List.length_map]
  rw [hlen]
  nth_rewrite 2 [← List.takeWhile_append_dropWhile (p := fun t => !t.isPh)
    (l := toks)]
  rw [List.drop_left]

theorem lead_append (toks : List Token) :
    (leadWords toks).map Token.lit ++ toks.drop (leadWords toks).length =
      toks := by
  rw [leadWords_map_lit, pattern_drop_eq_dropWhile,
    List.takeWhile_append_dropWhile]

@[simp] theorem isPh_lit (w : Str) : Token.isPh (Token.lit w) = false := rfl

@[simp] theorem isPh_ph (n : Str) : Token.isPh (Token.ph n) = true := rfl

theorem countPh_append (a b : List Token) :
    countPh (a ++ b) = countPh a + countPh b := by
  simp [countPh]

theorem countPh_map_lit (ws : List Str) : countPh (ws.map Token.lit) = 0 := by
  induction ws with
  | nil => rfl
  | cons w ws ih =>
    rw [List.map_cons, countPh, List.countP_cons]
    rw [countPh] at ih
    simp [ih]

theorem phNames_length (ts : List Token) :
    (phNames ts).length = countPh ts := by
  induction ts with
  | nil => rfl
  | cons t rest ih =>
    rw [countPh] at ih
    cases t with
    | lit w =>
      rw [phNames, countPh, List.countP_cons]
      simp [ih]
    | ph n =>
      rw [phNames, countPh, List.countP_cons, List.length_cons]
      simp [ih]

theorem countLit_eq (ts : List Token) :
    countLit ts = ts.length - countPh ts := by
  induction ts with
  | nil => rfl
  | cons t rest ih =>
    have hle : List.countP Token.isPh rest ≤ rest.length :=
      List.countP_le_length _
    simp only [countLit, countPh] at ih ⊢
    cases t with
    | lit w =>
      rw [List.countP_cons, List.countP_cons, List.length_cons]
      simp only [isPh_lit, Bool.not_false, if_pos, Bool.false_eq_true,
        if_false, ite_true, ite_false]
      omega
    | ph n =>
      rw [List.countP_cons, List.countP_cons, List.length_cons]
      simp only [isPh_ph, Bool.not_true, Bool.false_eq_true, if_false,
        ite_true, ite_false]
      omega

/-- Unpack a successful compilation into the token list and the field
values of the produced `Pattern`. -/
theorem compile_ok_fields (t : Str) (ctx : Option Str) (p : Pattern)
    (h : Pattern.compile t ctx = .ok p) :
    ∃ toks, compileWords (splitWs t) = .ok toks ∧
      p.orig_pattern = t ∧ p.pattern_context = ctx ∧
      p.placeholders = countPh toks ∧ p.argnames = phNames toks ∧
      p.lead = leadWords toks ∧
      p.pattern = toks.drop (leadWords toks).length ∧
      p.fixed = (toks.drop (leadWords toks).length).length - countPh toks := by
  rw [Pattern.compile] at h
  cases hcw : compileWords (splitWs t) with
  | error e => rw [hcw] at h; cases h
  | ok toks =>
    rw [hcw] at h
    simp only [Except.ok.injEq] at h
    exact ⟨toks, rfl, by rw [← h], by rw [← h], by rw [← h], by rw [← h],
      by rw [← h], by rw [← h], by rw [← h]⟩

/-- Well-formedness of a compiled pattern: the placeholder count counts the
placeholders of the post-prefix tokens. -/
theorem wf_countPh {t : Str} {ctx : Option Str} {p : Pattern}
    (h : Pattern.compile t ctx = .ok p) :
    countPh p.pattern = p.placeholders := by
  obtain ⟨toks, -, -, -, hph, -, -, hpat, -⟩ := compile_ok_fields t ctx p h
  rw [hph, hpat]
  conv_rhs => rw [← lead_append toks]
  rw [countPh_append, countPh_map_lit]
  omega

/-- Well-formedness: as many argument names as placeholders. -/
theorem wf_argnames_length {t : Str} {ctx : Option Str} {p : Pattern}
    (h : Pattern.compile t ctx = .ok p) :
    p.argnames.length = p.placeholders := by
  obtain ⟨toks, -, -, -, hph, han, -, -, -⟩ := compile_ok_fields t ctx p h
  rw [hph, han, phNames_length]

/-- Well-formedness: `fixed` counts the literal tokens after the prefix. -/
theorem wf_fixed {t : Str} {ctx : Option Str} {p : Pattern}
    (h : Pattern.compile t ctx = .ok p) :
    countLit p.pattern = p.fixed := by
  obtain ⟨toks, -, -, -, hph, -, -, hpat, hfx⟩ := compile_ok_fields t ctx p h
  rw [hfx, hpat, countLit_eq]
  have heq : countPh toks =
      countPh (toks.drop (leadWords toks).length) := by
    conv_lhs => rw [← lead_append toks]
    rw [countPh_append, countPh_map_lit]
    omega
  omega

/-- Well-formedness: a non-empty post-prefix token list starts with a
placeholder (the prefix is maximal). -/
theorem wf_first_ph {t : Str} {ctx : Option Str} {p : Pattern}
    (h : Pattern.compile t ctx = .ok p) (hne : p.pattern ≠ []) :
    1 ≤ countPh p.pattern := by
  obtain ⟨toks, -, -, -, -, -, -, hpat, -⟩ := compile_ok_fields t ctx p h
  rw [hpat, pattern_drop_eq_dropWhile] at hne ⊢
  cases hdw : toks.dropWhile (fun t => !t.isPh) with
  | nil => exact absurd hdw hne
  | cons x rest =>
    have hx := List.head?_dropWhile_not (fun t => !t.isPh) toks
    rw [hdw] at hx
    simp only [List.head?_cons] at hx
    rw [countPh, List.countP_cons, if_pos (by
      rw [Bool.not_eq_false'] at hx
      exact hx)]
    omega

/-- `set(a) == set(b)` in terms of membership. -/
theorem sameSet_iff (a b : List Str) :
    sameSet a b = true ↔ (∀ x, x ∈ a ↔ x ∈ b) := by
  rw [sameSet, Bool.and_eq_true, List.all_eq_true, List.all_eq_true]
  constructor
  · rintro ⟨h1, h2⟩ x
    constructor
    · intro hx
      have hc := h1 x hx
      simpa using hc
    · intro hx
      have hc := h2 x hx
      simpa using hc
  · intro h
    constructor
    · intro x hx
      simpa using (h x).mp hx
    · intro x hx
      simpa using (h x).mpr hx

/-- A non-empty word fails the compiler's classification exactly when it
contains a non-letter or mixes upper and lower case. -/
theorem badword_bridge {w : Str} (hne : w ≠ []) :
    (¬(isalphaS w = true ∧ (isupperS w = true ∨ islowerS w = true))) ↔
      ((∃ c ∈ w, ¬ c.isAlpha = true) ∨
        ((∃ c ∈ w, c.isLower = true) ∧ (∃ c ∈ w, c.isUpper = true))) := by
  by_cases hall : ∀ c ∈ w, c.isAlpha = true
  · have hA : isalphaS w = true := by
      rw [isalphaS, Bool.and_eq_true, List.all_eq_true]
      refine ⟨?_, hall⟩
      cases w with
      | nil => exact absurd rfl hne
      | cons c cs => rfl
    have hany : w.any Char.isAlpha = true := by
      rw [List.any_eq_true]
      cases w with
      | nil => exact absurd rfl hne
      | cons c cs => exact ⟨c, List.mem_cons_self _ _, hall c (List.mem_cons_self _ _)⟩
    have hup : isupperS w = true ↔ ∀ c ∈ w, c.isLower = false := by
      rw [isupperS, Bool.and_eq_true, List.all_eq_true]
      constructor
      · rintro ⟨-, h2⟩ c hc
        have hcl := h2 c hc
        rwa [Bool.not_eq_eq_eq_not, Bool.not_true] at hcl
      · intro h2
        refine ⟨hany, ?_⟩
        intro c hc
        rw [h2 c hc]
        rfl
    have hlo : islowerS w = true ↔ ∀ c ∈ w, c.isUpper = false := by
      rw [islowerS, Bool.and_eq_true, List.all_eq_true]
      constructor
      · rintro ⟨-, h2⟩ c hc
        have hcu := h2 c hc
        rwa [Bool.not_eq_eq_eq_not, Bool.not_true] at hcu
      · intro h2
        refine ⟨hany, ?_⟩
        intro c hc
        rw [h2 c hc]
        rfl
    constructor
    · intro hbad
      rw [not_and] at hbad
      have hor := hbad hA
      rw [not_or, hup, hlo] at hor
      obtain ⟨hnu, hnl⟩ := hor
      push_neg at hnu hnl
      obtain ⟨c1, hc1, hc1v⟩ := hnu
      obtain ⟨c2, hc2, hc2v⟩ := hnl
      have hc1t : c1.isLower = true := by
        cases h1 : c1.isLower
        · exact absurd h1 hc1v
        · rfl
      have hc2t : c2.isUpper = true := by
        cases h2 : c2.isUpper
        · exact absurd h2 hc2v
        · rfl
      exact Or.inr ⟨⟨c1, hc1, hc1t⟩, ⟨c2, hc2, hc2t⟩⟩
    · rintro (⟨c, hc, hca⟩ | ⟨⟨c1, hc1, hc1v⟩, ⟨c2, hc2, hc2v⟩⟩)
      · exact absurd (hall c hc) hca
      · rintro ⟨-, hU | hL⟩
        · rw [hup] at hU
          rw [hU c1 hc1] at hc1v
          cases hc1v
        · rw [hlo] at hL
          rw [hL c2 hc2] at hc2v
          cases hc2v
  · constructor
    · intro _
      push_neg at hall
      obtain ⟨c, hc, hca⟩ := hall
      exact Or.inl ⟨c, hc, hca⟩
    · intro _
      rintro ⟨hA, -⟩
      rw [isalphaS, Bool.and_eq_true, List.all_eq_true] at hA
      exact hall hA.2

/-! ## Claim theorems (compiler and registration) -/

/-- C6 (confirmed): pattern compilation fails with Malformed-Pattern iff some
whitespace-separated word of the template contains a non-letter or mixes
upper and lower case; on success the token sequence is the word-wise
classification (all-lowercase word → literal, all-uppercase word →
placeholder named by the lowercased word), the prefix is the longest leading
run of literal tokens, and `fixed = (token count − prefix length) −
placeholder count`; compilation is deterministic. -/
theorem claim_C6 (t : Str) (ctx : Option Str) :
    ((∃ e, Pattern.compile t ctx = .error e) ↔
      ∃ w ∈ splitWs t, (∃ c ∈ w, ¬ c.isAlpha = true) ∨
        ((∃ c ∈ w, c.isLower = true) ∧ (∃ c ∈ w, c.isUpper = true)))
    ∧ (∀ p, Pattern.compile t ctx = .ok p →
        p.lead.map Token.lit ++ p.pattern = (splitWs t).map specToken
        ∧ p.lead.map Token.lit =
            ((splitWs t).map specToken).takeWhile (fun tok => !tok.isPh)
        ∧ p.argnames = phNames ((splitWs t).map specToken)
        ∧ p.placeholders = countPh ((splitWs t).map specToken)
        ∧ p.fixed = ((splitWs t).length - p.lead.length) - p.placeholders)
    ∧ (∀ p q, Pattern.compile t ctx = .ok p → Pattern.compile t ctx = .ok q →
        p = q) := by
  refine ⟨⟨?_, ?_⟩, ?_, ?_⟩
  · rintro ⟨e, he⟩
    rw [Pattern.compile] at he
    cases hcw : compileWords (splitWs t) with
    | error e' =>
      cases compileWords_error_eq _ _ hcw
      rw [compileWords_error_iff] at hcw
      obtain ⟨w, hw, hbad⟩ := hcw
      exact ⟨w, hw, (badword_bridge (splitWs_ne_nil w hw)).mp hbad⟩
    | ok toks =>
      rw [hcw] at he
      cases he
  · rintro ⟨w, hw, hbad⟩
    have hcw : compileWords (splitWs t) = .error .malformed :=
      (compileWords_error_iff _).mpr
        ⟨w, hw, (badword_bridge (splitWs_ne_nil w hw)).mpr hbad⟩
    refine ⟨.malformed, ?_⟩
    rw [Pattern.compile, hcw]
  · intro p hp
    obtain ⟨toks, hcw, -, -, hph, han, hld, hpat, hfx⟩ :=
      compile_ok_fields t ctx p hp
    obtain ⟨htoks, -⟩ := compileWords_ok _ _ hcw
    subst htoks
    refine ⟨?_, ?_, han, hph, ?_⟩
    · rw [hld, hpat]
      exact lead_append _
    · rw [hld]
      exact leadWords_map_lit _
    · rw [hfx, hld, hph, List.length_drop, List.length_map]
  · intro p q hp hq
    rw [hp] at hq
    cases hq
    rfl

/-- C6 witness: the structural conjunct applied to the compiled pattern of
`"put ITEM in CONTAINER"`. -/
theorem claim_C6_witness :
    putPattern.lead.map Token.lit ++ putPattern.pattern =
      (splitWs (strL "put ITEM in CONTAINER")).map specToken
    ∧ putPattern.lead.map Token.lit =
        ((splitWs (strL "put ITEM in CONTAINER")).map specToken).takeWhile
          (fun tok => !tok.isPh)
    ∧ putPattern.argnames =
        phNames ((splitWs (strL "put ITEM in CONTAINER")).map specToken)
    ∧ putPattern.placeholders =
        countPh ((splitWs (strL "put ITEM in CONTAINER")).map specToken)
    ∧ putPattern.fixed =
        ((splitWs (strL "put ITEM in CONTAINER")).length -
          putPattern.lead.length) - putPattern.placeholders :=
  (claim_C6 (strL "put ITEM in CONTAINER") (some (strL "default"))).2.1
    putPattern (by rfl)

/-- C5 (confirmed): registration fails with Signature-Mismatch iff the
handler's parameter-name set differs, as a set, from the union of the
compiled pattern's argument names and the fixed keywords' keys; on success
exactly one entry is appended at the registry's end.  Registering a handler
with only parameter `weapon` for pattern `"take ITEM"` fails. -/
theorem claim_C5 :
    (∀ (commands : List Entry) (command : Str) (funcParams : List Str)
        (handler : Nat) (context : Option Str) (kwargs : Dict) (p : Pattern),
      Pattern.compile command context = .ok p →
      ((register commands command funcParams handler context kwargs =
          .error .sigMismatch ↔
        ¬ ∀ x : Str, x ∈ funcParams ↔ x ∈ p.argnames ++ dictKeys kwargs)
      ∧ ((∀ x : Str, x ∈ funcParams ↔ x ∈ p.argnames ++ dictKeys kwargs) →
          register commands command funcParams handler context kwargs =
            .ok (commands ++
              [{ pattern := p, handler := handler, kwargs := kwargs }]))))
    ∧ register [] (strL "take ITEM") [strL "weapon"] 0
        (some (strL "default")) [] = .error .sigMismatch := by
  constructor
  · intro commands command funcParams handler context kwargs p hp
    have hreg : register commands command funcParams handler context kwargs =
        if sameSet funcParams (p.argnames ++ dictKeys kwargs) then
          .ok (commands ++
            [{ pattern := p, handler := handler, kwargs := kwargs }])
        else .error .sigMismatch := by
      rw [register, hp]
    constructor
    · rw [hreg]
      by_cases hs : sameSet funcParams (p.argnames ++ dictKeys kwargs) = true
      · rw [if_pos hs]
        simp only [reduceCtorEq, false_iff, not_not]
        exact (sameSet_iff _ _).mp hs
      · rw [if_neg hs]
        simp only [true_iff]
        intro hmem
        exact hs ((sameSet_iff _ _).mpr hmem)
    · intro hmem
      rw [hreg, if_pos ((sameSet_iff _ _).mpr hmem)]
  · decide

/-- C5 witness: a handler whose single parameter matches the pattern's single
argument registers successfully, appending one entry at the end. -/
theorem claim_C5_witness :
    register [] (strL "take ITEM") [strL "item"] 0
      (some (strL "default")) [] =
      .ok [{ pattern :=
              { orig_pattern := strL "take ITEM"
                pattern_context := some (strL "default")
                placeholders := 1
                argnames := [strL "item"]
                lead := [strL "take"]
                pattern := [Token.ph (strL "item")]
                fixed := 0 }
             handler := 0
             kwargs := [] }] :=
  (claim_C5.1 [] (strL "take ITEM") [strL "item"] 0 (some (strL "default"))
    [] _ (by rfl)).2 (by intro x; simp [dictKeys])

/-- C7 (amended): in every compiled pattern each token is an all-lowercase
all-letters literal or a placeholder derived from an all-uppercase
all-letters word (no token mixes case or contains non-letters) — but the
argument names need not be unique: `'take ITEM ITEM'` compiles and yields
the duplicated argument names `[item, item]`. -/
theorem claim_C7 (t : Str) (ctx : Option Str) (p : Pattern)
    (h : Pattern.compile t ctx = .ok p) :
    (∀ tok ∈ p.lead.map Token.lit ++ p.pattern,
      (∃ w, tok = Token.lit w ∧ w ≠ [] ∧
        ∀ c ∈ w, c.isAlpha = true ∧ c.isLower = true) ∨
      (∃ w, tok = Token.ph (lowerS w) ∧ w ≠ [] ∧
        ∀ c ∈ w, c.isAlpha = true ∧ c.isUpper = true))
    ∧ (Pattern.compile (strL "take ITEM ITEM") (some (strL "default"))).map
        Pattern.argnames = .ok [strL "item", strL "item"] := by
  refine ⟨?_, by decide⟩
  intro tok htok
  obtain ⟨toks, hcw, -, -, -, -, hld, hpat, -⟩ := compile_ok_fields t ctx p h
  obtain ⟨htoks, hgood⟩ := compileWords_ok _ _ hcw
  rw [hld, hpat, lead_append] at htok
  rw [htoks] at htok
  rw [List.mem_map] at htok
  obtain ⟨w, hw, hspec⟩ := htok
  obtain ⟨hA, hUL⟩ := hgood w hw
  obtain ⟨hne, hchars⟩ := isalphaS_chars hA
  rcases hUL with hU | hL
  · refine Or.inr ⟨w, ?_, hne, ?_⟩
    · rw [← hspec, specToken_upper hU]
    · intro c hc
      refine ⟨hchars c hc, ?_⟩
      rw [isupperS, Bool.and_eq_true, List.all_eq_true] at hU
      have hcl := hU.2 c hc
      rw [Bool.not_eq_eq_eq_not, Bool.not_true] at hcl
      exact alpha_not_lower c (hchars c hc) hcl
  · refine Or.inl ⟨w, ?_, hne, ?_⟩
    · rw [← hspec, specToken_lower hA hL]
    · intro c hc
      refine ⟨hchars c hc, ?_⟩
      rw [islowerS, Bool.and_eq_true, List.all_eq_true] at hL
      have hcu := hL.2 c hc
      rw [Bool.not_eq_eq_eq_not, Bool.not_true] at hcu
      exact alpha_not_upper c (hchars c hc) hcu

/-- C7 counterexample: the compiler accepts `'take ITEM ITEM'`, whose
argument names are not unique. -/
theorem claim_C7_counterexample :
    (Pattern.compile (strL "take ITEM ITEM") (some (strL "default"))).map
      Pattern.argnames = .ok [strL "item", strL "item"] ∧
    ¬ List.Nodup [strL "item", strL "item"] := by
  constructor
  · decide
  · intro hnd
    simp at hnd

/-- C7 witness: the amended invariant applied to the compiled pattern of
`"take ITEM"`. -/
theorem claim_C7_witness :
    (Pattern.compile (strL "take ITEM ITEM") (some (strL "default"))).map
      Pattern.argnames = .ok [strL "item", strL "item"] :=
  (claim_C7 (strL "take ITEM") (some (strL "default"))
    { orig_pattern := strL "take ITEM"
      pattern_context := some (strL "default")
      placeholders := 1
      argnames := [strL "item"]
      lead := [strL "take"]
      pattern := [Token.ph (strL "item")]
      fixed := 0 } (by rfl)).2

/-! ## The registry and dispatcher -/

/-- `is_active` never raises when the current context is set. -/
theorem is_active_some_ok (p : Pattern) (cur : Str) :
    ∃ b, p.is_active (some cur) = .ok b := by
  rw [Pattern.is_active]
  cases p.pattern_context with
  | none => exact ⟨false, rfl⟩
  | some ctx =>
    dsimp only
    by_cases h1 : (if ctx ≠ strL "default" then strL "default." ++ ctx
        else ctx) = cur
    · rw [if_pos h1]
      exact ⟨true, rfl⟩
    · rw [if_neg h1]
      by_cases h2 : (if ctx ≠ strL "default" then strL "default." ++ ctx
          else ctx) ++ [('.' : Char)] =
          cur.take ((if ctx ≠ strL "default" then strL "default." ++ ctx
            else ctx).length + 1)
      · rw [if_pos h2]
        exact ⟨true, rfl⟩
      · rw [if_neg h2]
        exact ⟨false, rfl⟩

/-- `match` never raises when the current context is set. -/
theorem matchCmd_some_ok (p : Pattern) (cur : Str) (ws : List Str) :
    ∃ r, p.matchCmd (some cur) ws = .ok r := by
  obtain ⟨b, hb⟩ := is_active_some_ok p cur
  rw [Pattern.matchCmd, hb]
  cases b with
  | false => exact ⟨none, rfl⟩
  | true =>
    dsimp only
    split_ifs <;> exact ⟨_, rfl⟩

/-- The dispatch loop when no entry matches. -/
theorem handleLoop_all_none (cur : Str) (ws : List Str) :
    ∀ cmds : List Entry,
      (∀ e ∈ cmds, e.pattern.matchCmd (some cur) ws = .ok none) →
      handleLoop cur ws cmds = .ok none := by
  intro cmds
  induction cmds with
  | nil => intro _; rfl
  | cons e rest ih =>
    intro hall
    rw [handleLoop, hall e (List.mem_cons_self _ _)]
    exact ih (fun x hx => hall x (List.mem_cons_of_mem _ hx))

/-- The dispatch loop stops at the first matching entry. -/
theorem handleLoop_first (cur : Str) (ws : List Str) :
    ∀ (cmds : List Entry) (i : Nat) (hi : i < cmds.length) (m : Dict),
      (cmds.get ⟨i, hi⟩).pattern.matchCmd (some cur) ws = .ok (some m) →
      (∀ j, (hj : j < i) →
        (cmds.get ⟨j, Nat.lt_trans hj hi⟩).pattern.matchCmd (some cur) ws =
          .ok none) →
      handleLoop cur ws cmds =
        .ok (some ((cmds.get ⟨i, hi⟩).handler,
          dictUpdate (cmds.get ⟨i, hi⟩).kwargs m)) := by
  intro cmds
  induction cmds with
  | nil => intro i hi; exact absurd hi (by simp)
  | cons e rest ih =>
    intro i hi m hm hearly
    cases i with
    | zero =>
      rw [handleLoop]
      rw [show (e :: rest).get ⟨0, hi⟩ = e from rfl] at hm
      rw [hm]
      rfl
    | succ i' =>
      have h0 : e.pattern.matchCmd (some cur) ws = .ok none := by
        have := hearly 0 (Nat.succ_pos i')
        rwa [show (e :: rest).get ⟨0, _⟩ = e from rfl] at this
      rw [handleLoop, h0]
      have hi' : i' < rest.length := Nat.lt_of_succ_lt_succ hi
      have hm' : (rest.get ⟨i', hi'⟩).pattern.matchCmd (some cur) ws =
          .ok (some m) := hm
      have hearly' : ∀ j, (hj : j < i') →
          (rest.get ⟨j, Nat.lt_trans hj hi'⟩).pattern.matchCmd (some cur)
            ws = .ok none := by
        intro j hj
        have := hearly (j + 1) (Nat.succ_lt_succ hj)
        exact this
      exact ih i' hi' m hm' hearly'

/-- The dispatch loop never raises when the current context is set. -/
theorem handleLoop_ok (cur : Str) (ws : List Str) :
    ∀ cmds : List Entry, ∃ r, handleLoop cur ws cmds = .ok r := by
  intro cmds
  induction cmds with
  | nil => exact ⟨none, rfl⟩
  | cons e rest ih =>
    obtain ⟨r, hr⟩ := matchCmd_some_ok e.pattern cur ws
    rw [handleLoop]
    cases r with
    | none =>
      rw [hr]
      exact ih
    | some m =>
      rw [hr]
      exact ⟨some (e.handler, dictUpdate e.kwargs m), rfl⟩

/-! ## Claim theorems (registry and dispatcher) -/

/-- C4 (confirmed): dispatch lowercases and splits the raw line, walks the
registry in order, invokes the first matching entry's handler with the fixed
keywords updated by the captured mapping, and otherwise invokes the
unmatched-command collaborator with the raw line; exactly one of these two
outcomes occurs. -/
theorem claim_C4 (cmds : List Entry) (cur : Str) (cmd : Str) :
    ((∀ e ∈ cmds,
        e.pattern.matchCmd (some cur) (splitWs (lowerS cmd)) = .ok none) →
      handleCommand cmds cur cmd = .ok (.unmatched cmd))
    ∧ (∀ (i : Nat) (hi : i < cmds.length) (m : Dict),
        (cmds.get ⟨i, hi⟩).pattern.matchCmd (some cur)
          (splitWs (lowerS cmd)) = .ok (some m) →
        (∀ j, (hj : j < i) →
          (cmds.get ⟨j, Nat.lt_trans hj hi⟩).pattern.matchCmd (some cur)
            (splitWs (lowerS cmd)) = .ok none) →
        handleCommand cmds cur cmd =
          .ok (.handled (cmds.get ⟨i, hi⟩).handler
            (dictUpdate (cmds.get ⟨i, hi⟩).kwargs m)))
    ∧ ((∃ h a, handleCommand cmds cur cmd = .ok (.handled h a)) ↔
        handleCommand cmds cur cmd ≠ .ok (.unmatched cmd)) := by
  refine ⟨?_, ?_, ?_⟩
  · intro hall
    rw [handleCommand, handleLoop_all_none cur _ cmds hall]
  · intro i hi m hm hearly
    rw [handleCommand, handleLoop_first cur _ cmds i hi m hm hearly]
  · obtain ⟨r, hr⟩ := handleLoop_ok cur (splitWs (lowerS cmd)) cmds
    cases r with
    | none =>
      rw [handleCommand, hr]
      constructor
      · rintro ⟨h, a, ha⟩
        cases ha
      · intro hne
        exact absurd rfl hne
    | some ha =>
      rw [handleCommand, hr]
      constructor
      · rintro ⟨h, a, hh⟩
        intro hcon
        cases hcon
      · intro _
        exact ⟨ha.1, ha.2, rfl⟩

/-- C4 witness: dispatching `"quit"` against the initial registry invokes the
built-in exit handler with no arguments. -/
theorem claim_C4_witness :
    handleCommand initialCommands (strL "default") (strL "quit") =
      .ok (.handled sysExitHandler []) :=
  (claim_C4 initialCommands (strL "default") (strL "quit")).2.1 0 (by decide)
    [] (by rfl) (fun j hj => absurd hj (by omega))

/-- C8 (amended): `commands` is pre-seeded at construction with the built-in
exit (`quit`) entry at the highest-priority end — user registrations append
after it, so the exit entry is tried before every user-registered entry —
and when help is enabled `start` inserts the `?` shortcut and the full
`help` word at the very front, ahead of everything including the exit
entry. -/
theorem claim_C8 :
    initialCommands =
      [{ pattern := quitPattern, handler := sysExitHandler, kwargs := [] }]
    ∧ (∀ (cmds : List Entry) (command : Str) (funcParams : List Str)
        (handler : Nat) (context : Option Str) (kwargs : Dict)
        (cmds2 : List Entry),
        register cmds command funcParams handler context kwargs = .ok cmds2 →
        ∃ e, cmds2 = cmds ++ [e])
    ∧ (∀ cmds, startCommands true cmds =
        { pattern := qmarkPattern, handler := helpHandler, kwargs := [] } ::
        { pattern := helpPattern, handler := helpHandler, kwargs := [] } ::
        cmds)
    ∧ (∀ cmds, startCommands false cmds = cmds) := by
  refine ⟨rfl, ?_, fun cmds => rfl, fun cmds => rfl⟩
  intro cmds command funcParams handler context kwargs cmds2 hreg
  cases hc : Pattern.compile command context with
  | error e =>
    have hform : register cmds command funcParams handler context kwargs =
        .error e := by
      rw [register, hc]
    rw [hform] at hreg
    cases hreg
  | ok p =>
    have hform : register cmds command funcParams handler context kwargs =
        if sameSet funcParams (p.argnames ++ dictKeys kwargs) then
          .ok (cmds ++
            [{ pattern := p, handler := handler, kwargs := kwargs }])
        else .error .sigMismatch := by
      rw [register, hc]
    rw [hform] at hreg
    by_cases hs : sameSet funcParams (p.argnames ++ dictKeys kwargs) = true
    · rw [if_pos hs] at hreg
      cases hreg
      exact ⟨_, rfl⟩
    · rw [if_neg hs] at hreg
      cases hreg

/-- C8 counterexample: the claim as stated says every user-registered entry
is tried before the exit entry; but registering a user handler for `"quit"`
appends it after the pre-seeded exit entry, and dispatching `"quit"` invokes
the built-in exit handler, not the user's. -/
theorem claim_C8_counterexample :
    register initialCommands (strL "quit") [] 7 (some (strL "default")) [] =
      .ok (initialCommands ++
        [{ pattern := quitPattern, handler := 7, kwargs := [] }])
    ∧ handleCommand (initialCommands ++
        [{ pattern := quitPattern, handler := 7, kwargs := [] }])
        (strL "default") (strL "quit") =
        .ok (.handled sysExitHandler [])
    ∧ sysExitHandler ≠ 7 := by
  refine ⟨by decide, by decide, by decide⟩

/-- C8 witness: `start` with help enabled puts the two help entries ahead of
the pre-seeded exit entry. -/
theorem claim_C8_witness :
    startCommands true initialCommands =
      { pattern := qmarkPattern, handler := helpHandler, kwargs := [] } ::
      { pattern := helpPattern, handler := helpHandler, kwargs := [] } ::
      initialCommands :=
  claim_C8.2.2.1 initialCommands

/-! ## Dict lemmas (Python dict semantics) -/

theorem dictLookup_cons_pos {δ : Type} (a : Str × δ) (d : DictV δ) (k : Str)
    (h : a.1 = k) : dictLookup (a :: d) k = some a.2 := by
  rw [dictLookup, List.find?_cons_of_pos _ (by simpa using h)]
  rfl

theorem dictLookup_cons_neg {δ : Type} (a : Str × δ) (d : DictV δ) (k : Str)
    (h : a.1 ≠ k) : dictLookup (a :: d) k = dictLookup d k := by
  rw [dictLookup, List.find?_cons_of_neg _ (by simpa using h)]
  rfl

/-- Looking up after a dict assignment: the assigned key reads the new
value, all other keys are untouched. -/
theorem dictLookup_insert {δ : Type} (d : DictV δ) (k k' : Str) (v : δ) :
    dictLookup (dictInsert d k v) k' =
      if k' = k then some v else dictLookup d k' := by
  rw [dictInsert]
  by_cases hany : d.any (fun p => p.1 = k) = true
  · rw [if_pos hany]
    induction d with
    | nil => simp at hany
    | cons a d ih =>
      rw [List.map_cons]
      by_cases hk : a.1 = k
      · rw [if_pos hk]
        by_cases hk' : k' = k
        · rw [if_pos hk']
          exact dictLookup_cons_pos _ _ _ hk'.symm
        · rw [if_neg hk']
          rw [dictLookup_cons_neg _ _ _ (fun hc => hk' hc.symm)]
          rw [dictLookup_cons_neg _ _ _ (fun hc => hk' (by rw [← hc, hk]))]
          by_cases hany' : d.any (fun p => p.1 = k) = true
          · rw [ih hany', if_neg hk']
          · -- no k in the tail: the map is the identity there
            have hid : d.map (fun p => if p.1 = k then (k, v) else p) = d := by
              conv_rhs => rw [← List.map_id d]
              apply List.map_congr_left
              intro p hp
              rw [if_neg]
              · rfl
              · intro hpk
                exact hany' (List.any_eq_true.mpr ⟨p, hp, by simpa using hpk⟩)
            rw [hid]
      · rw [if_neg hk]
        by_cases hk' : k' = a.1
        · rw [dictLookup_cons_pos _ _ _ hk'.symm,
            dictLookup_cons_pos _ _ _ hk'.symm,
            if_neg (fun hc => hk (by rw [← hk', hc]))]
        · rw [dictLookup_cons_neg _ _ _ (fun hc => hk' hc.symm),
            dictLookup_cons_neg _ _ _ (fun hc => hk' hc.symm)]
          have hany' : d.any (fun p => p.1 = k) = true := by
            rcases List.any_eq_true.mp hany with ⟨p, hp, hpk⟩
            rcases List.mem_cons.mp hp with rfl | hp'
            · exact absurd (by simpa using hpk) hk
            · exact List.any_eq_true.mpr ⟨p, hp', hpk⟩
          exact ih hany'
  · rw [if_neg hany]
    induction d with
    | nil =>
      by_cases hk' : k' = k
      · rw [if_pos hk', List.nil_append]
        exact dictLookup_cons_pos _ _ _ hk'.symm
      · rw [if_neg hk', List.nil_append]
        rw [dictLookup_cons_neg _ _ _ (fun hc => hk' hc.symm)]
    | cons a d ih =>
      have hak : a.1 ≠ k := by
        intro hc
        exact hany (List.any_eq_true.mpr
          ⟨a, List.mem_cons_self _ _, by simpa using hc⟩)
      have hany' : ¬ d.any (fun p => p.1 = k) = true := by
        intro hc
        rcases List.any_eq_true.mp hc with ⟨p, hp, hpk⟩
        exact hany (List.any_eq_true.mpr ⟨p, List.mem_cons_of_mem _ hp, hpk⟩)
      rw [List.cons_append]
      by_cases hk' : k' = a.1
      · rw [dictLookup_cons_pos _ _ _ hk'.symm,
          dictLookup_cons_pos _ _ _ hk'.symm,
          if_neg (fun hc => hak (by rw [← hk', hc]))]
      · rw [dictLookup_cons_neg _ _ _ (fun hc => hk' hc.symm),
          dictLookup_cons_neg _ _ _ (fun hc => hk' hc.symm)]
        exact ih hany'

theorem dictUpdate_cons {δ : Type} (d : DictV δ) (a : Str × δ)
    (m : DictV δ) :
    dictUpdate d (a :: m) = dictUpdate (dictInsert d a.1 a.2) m := rfl

theorem dictUpdate_lookup_not_mem {δ : Type} :
    ∀ (m d : DictV δ) (k : Str), k ∉ dictKeys m →
      dictLookup (dictUpdate d m) k = dictLookup d k := by
  intro m
  induction m with
  | nil => intro d k _; rfl
  | cons a m ih =>
    intro d k hk
    rw [dictKeys, List.map_cons, List.mem_cons] at hk
    push_neg at hk
    rw [dictUpdate_cons, ih _ _ (by rw [dictKeys]; exact hk.2),
      dictLookup_insert, if_neg hk.1]

/-- Updating a dict with a mapping whose keys are unique: every key of the
mapping reads its mapped value afterwards — the update overwrites, and is
never overwritten by, the base dict. -/
theorem dictLookup_update_of_mem {δ : Type} :
    ∀ (m d : DictV δ) (k : Str) (v : δ),
      dictLookup m k = some v → (dictKeys m).Nodup →
      dictLookup (dictUpdate d m) k = some v := by
  intro m
  induction m with
  | nil => intro d k v h; cases h
  | cons a m ih =>
    intro d k v h hnd
    rw [dictKeys, List.map_cons, List.nodup_cons] at hnd
    by_cases hk : a.1 = k
    · have hv : a.2 = v := by
        rw [dictLookup_cons_pos _ _ _ hk] at h
        exact Option.some.inj h
      have hknm : k ∉ dictKeys m := by
        rw [← hk]
        exact hnd.1
      rw [dictUpdate_cons, dictUpdate_lookup_not_mem m _ k hknm,
        dictLookup_insert, if_pos hk.symm, hv]
    · rw [dictLookup_cons_neg _ _ _ hk] at h
      rw [dictUpdate_cons]
      exact ih _ k v h hnd.2

theorem dictKeys_insert {δ : Type} (d : DictV δ) (k : Str) (v : δ) :
    dictKeys (dictInsert d k v) =
      if d.any (fun p => p.1 = k) then dictKeys d else dictKeys d ++ [k] := by
  rw [dictInsert]
  by_cases hany : d.any (fun p => p.1 = k) = true
  · rw [if_pos hany, if_pos hany, dictKeys, dictKeys, List.map_map]
    apply List.map_congr_left
    intro p _
    by_cases hp : p.1 = k
    · simp [hp]
    · simp [hp]
  · rw [if_neg hany, if_neg hany, dictKeys, dictKeys, List.map_append]
    rfl

theorem dictKeys_insert_nodup {δ : Type} (d : DictV δ) (k : Str) (v : δ)
    (h : (dictKeys d).Nodup) : (dictKeys (dictInsert d k v)).Nodup := by
  rw [dictKeys_insert]
  by_cases hany : d.any (fun p => p.1 = k) = true
  · rw [if_pos hany]
    exact h
  · rw [if_neg hany]
    rw [List.nodup_append]
    refine ⟨h, List.nodup_singleton _, ?_⟩
    intro x hx hxk
    rw [List.mem_singleton] at hxk
    subst hxk
    rw [dictKeys, List.mem_map] at hx
    obtain ⟨p, hp, hpk⟩ := hx
    exact hany (List.any_eq_true.mpr ⟨p, hp, by simpa using hpk⟩)

/-- One allocation attempt preserves uniqueness of the captured keys. -/
theorem tryCombo_keys_nodup :
    ∀ (toks : List Token) (combo : List Nat) (inp : List Str)
      (acc res : DictV (List Str)),
      (dictKeys acc).Nodup → tryCombo toks combo inp acc = some res →
      (dictKeys res).Nodup := by
  intro toks
  induction toks with
  | nil =>
    intro combo inp acc res h hres
    cases hres
    exact h
  | cons t toks ih =>
    intro combo inp acc res h hres
    cases t with
    | ph name =>
      cases combo with
      | nil => cases hres
      | cons count combo' =>
        rw [tryCombo] at hres
        by_cases hc : count ≤ inp.length
        · rw [if_pos hc] at hres
          exact ih combo' (inp.drop count) _ res
            (dictKeys_insert_nodup _ _ _ h) hres
        · rw [if_neg hc] at hres
          cases hres
    | lit w =>
      cases inp with
      | nil => cases hres
      | cons word inp' =>
        rw [tryCombo] at hres
        by_cases hw : w = word
        · rw [if_pos hw] at hres
          exact ih combo inp' acc res h hres
        · rw [if_neg hw] at hres
          cases hres

theorem dictKeys_finalize (d : DictV (List Str)) :
    dictKeys (finalizeCaptures d) = dictKeys d := by
  rw [dictKeys, finalizeCaptures, List.map_map, dictKeys]
  rfl

/-- The captures returned by a successful match have unique keys. -/
theorem matchCmd_keys_nodup (p : Pattern) (cur : Str) (ws : List Str)
    (m : Dict) (h : p.matchCmd (some cur) ws = .ok (some m)) :
    (dictKeys m).Nodup := by
  rw [Pattern.matchCmd] at h
  obtain ⟨b, hb⟩ := is_active_some_ok p cur
  rw [hb] at h
  cases b with
  | false => simp at h
  | true =>
    dsimp only at h
    split_ifs at h with h1 h2 h3 h4
    · simp at h
    · simp at h
    · simp only [Except.ok.injEq, Option.some.injEq] at h
      subst h
      simp [dictKeys]
    · simp at h
    · simp only [Except.ok.injEq] at h
      obtain ⟨combo, -, hcombo⟩ := List.exists_of_findSome?_eq_some h
      rw [Option.map_eq_some'] at hcombo
      obtain ⟨md, hmd, hfin⟩ := hcombo
      rw [← hfin, dictKeys_finalize]
      exact tryCombo_keys_nodup p.pattern combo _ [] md (by simp [dictKeys])
        hmd

/-- C9 (confirmed): registration permits a fixed keyword that shares its
name with a pattern argument (only the union of the two name sets is
checked), and on dispatch the captured mapping overwrites the fixed keyword
value — the handler receives the value captured from the input, never the
fixed one. -/
theorem claim_C9 :
    (∀ (cmds : List Entry) (cur cmd : Str) (i : Nat) (hi : i < cmds.length)
        (m : Dict) (k v : Str),
      (cmds.get ⟨i, hi⟩).pattern.matchCmd (some cur)
        (splitWs (lowerS cmd)) = .ok (some m) →
      (∀ j, (hj : j < i) →
        (cmds.get ⟨j, Nat.lt_trans hj hi⟩).pattern.matchCmd (some cur)
          (splitWs (lowerS cmd)) = .ok none) →
      dictLookup m k = some v →
      handleCommand cmds cur cmd =
        .ok (.handled (cmds.get ⟨i, hi⟩).handler
          (dictUpdate (cmds.get ⟨i, hi⟩).kwargs m))
      ∧ dictLookup (dictUpdate (cmds.get ⟨i, hi⟩).kwargs m) k = some v)
    ∧ register [] (strL "take ITEM") [strL "item"] 3 (some (strL "default"))
        [(strL "item", strL "sword")] =
      .ok [{ pattern := takeItemPattern, handler := 3,
             kwargs := [(strL "item", strL "sword")] }]
    ∧ handleCommand
        [{ pattern := takeItemPattern, handler := 3,
           kwargs := [(strL "item", strL "sword")] }]
        (strL "default") (strL "take red ball") =
      .ok (.handled 3 [(strL "item", strL "red ball")]) := by
  refine ⟨?_, by decide, by decide⟩
  intro cmds cur cmd i hi m k v hm hearly hlk
  refine ⟨?_, ?_⟩
  · rw [handleCommand,
      handleLoop_first cur (splitWs (lowerS cmd)) cmds i hi m hm hearly]
  · exact dictLookup_update_of_mem m _ k v hlk
      (matchCmd_keys_nodup _ cur _ m hm)

/-- C9 witness: for a registered entry whose fixed keyword `item = "sword"`
overlaps the pattern argument `item`, dispatching `"take red ball"` hands
the handler the captured value `"red ball"`. -/
theorem claim_C9_witness :
    handleCommand
      [{ pattern := takeItemPattern, handler := 3,
         kwargs := [(strL "item", strL "sword")] }]
      (strL "default") (strL "take red ball") =
      .ok (.handled 3
        (dictUpdate [(strL "item", strL "sword")]
          [(strL "item", strL "red ball")]))
    ∧ dictLookup
        (dictUpdate [(strL "item", strL "sword")]
          [(strL "item", strL "red ball")]) (strL "item") =
      some (strL "red ball") :=
  claim_C9.1
    [{ pattern := takeItemPattern, handler := 3,
       kwargs := [(strL "item", strL "sword")] }]
    (strL "default") (strL "take red ball") 0 (by decide)
    [(strL "item", strL "red ball")] (strL "item") (strL "red ball")
    (by decide) (fun j hj => absurd hj (by omega)) (by decide)

/-! ## The matcher (`Pattern.match`) -/

theorem countPh_cons_ph (n : Str) (ts : List Token) :
    countPh (Token.ph n :: ts) = countPh ts + 1 := by
  simp [countPh, List.countP_cons]

theorem countPh_cons_lit (w : Str) (ts : List Token) :
    countPh (Token.lit w :: ts) = countPh ts := by
  simp [countPh, List.countP_cons]

theorem countLit_cons_ph (n : Str) (ts : List Token) :
    countLit (Token.ph n :: ts) = countLit ts := by
  simp [countLit, List.countP_cons]

theorem countLit_cons_lit (w : Str) (ts : List Token) :
    countLit (Token.lit w :: ts) = countLit ts + 1 := by
  simp [countLit, List.countP_cons]

/-- Finalizing after a dict assignment is assigning the joined value after
finalizing. -/
theorem finalize_insert (d : DictV (List Str)) (k : Str) (v : List Str) :
    finalizeCaptures (dictInsert d k v) =
      dictInsert (finalizeCaptures d) k (joinSpaces v) := by
  rw [dictInsert, dictInsert]
  have hany : (finalizeCaptures d).any (fun p => p.1 = k) =
      d.any (fun p => p.1 = k) := by
    induction d with
    | nil => rfl
    | cons a d ih =>
      rw [show finalizeCaptures (a :: d) =
          (a.1, joinSpaces a.2) :: finalizeCaptures d from rfl]
      rw [List.any_cons, List.any_cons, ih]
  rw [hany]
  by_cases h : d.any (fun p => p.1 = k) = true
  · rw [if_pos h, if_pos h, finalizeCaptures, finalizeCaptures,
      List.map_map, List.map_map]
    apply List.map_congr_left
    intro q _
    by_cases hq : q.1 = k
    · simp [hq]
    · simp [hq]
  · rw [if_neg h, if_neg h, finalizeCaptures, finalizeCaptures,
      List.map_append]
    rfl

/-- The lockstep refinement: when the allocation tuple covers exactly the
placeholders and its total plus the remaining literals equals the input
length (as every tuple of the allocator does), the source's inner loop —
which does not test that the input is exhausted — agrees with the
spec-side attempt, which does. -/
theorem tryCombo_eq_spec :
    ∀ (toks : List Token) (combo : List Nat) (inp : List Str)
      (acc : DictV (List Str)),
      combo.length = countPh toks →
      combo.sum + countLit toks = inp.length →
      (tryCombo toks combo inp acc).map finalizeCaptures =
        tryAllocSpec toks combo inp (finalizeCaptures acc) := by
  intro toks
  induction toks with
  | nil =>
    intro combo inp acc h1 h2
    have hph0 : countPh ([] : List Token) = 0 := rfl
    have hcombo : combo = [] := by
      rw [← List.length_eq_zero]
      omega
    subst hcombo
    have hlit0 : countLit ([] : List Token) = 0 := rfl
    have hsum0 : ([] : List Nat).sum = 0 := rfl
    have hinp : inp = [] := by
      rw [← List.length_eq_zero]
      omega
    subst hinp
    rfl
  | cons t toks ih =>
    cases t with
    | ph name =>
      intro combo inp acc h1 h2
      rw [countPh_cons_ph] at h1
      rw [countLit_cons_ph] at h2
      cases combo with
      | nil => simp at h1
      | cons count combo' =>
        rw [List.length_cons] at h1
        rw [List.sum_cons] at h2
        have hcount : count ≤ inp.length := by omega
        rw [tryCombo, tryAllocSpec, if_pos hcount, if_pos hcount]
        rw [ih combo' (inp.drop count) (dictInsert acc name (inp.take count))
          (by omega) (by rw [List.length_drop]; omega)]
        rw [finalize_insert]
    | lit w =>
      intro combo inp acc h1 h2
      rw [countPh_cons_lit] at h1
      rw [countLit_cons_lit] at h2
      cases inp with
      | nil => simp at h2
      | cons word inp' =>
        rw [List.length_cons] at h2
        rw [tryCombo, tryAllocSpec]
        by_cases hw : w = word
        · rw [if_pos hw, if_pos hw]
          exact ih combo inp' acc h1 (by omega)
        · rw [if_neg hw, if_neg hw]
          rfl

/-- `findSome?` only depends on the function's values on the list. -/
theorem findSome?_congr {α β : Type} (l : List α) (f g : α → Option β)
    (h : ∀ a ∈ l, f a = g a) : l.findSome? f = l.findSome? g := by
  induction l with
  | nil => rfl
  | cons a l ih =>
    rw [List.findSome?_cons, List.findSome?_cons,
      h a (List.mem_cons_self _ _)]
    cases g a with
    | none => exact ih (fun x hx => h x (List.mem_cons_of_mem _ hx))
    | some b => rfl

/-- `match` when the pattern is inactive. -/
theorem matchCmd_inactive (p : Pattern) (cur : Str) (input : List Str)
    (hact : p.is_active (some cur) = .ok false) :
    p.matchCmd (some cur) input = .ok none := by
  rw [Pattern.matchCmd, hact]

/-- `match` when the pattern is active: the source's guard cascade. -/
theorem matchCmd_active (p : Pattern) (cur : Str) (input : List Str)
    (hact : p.is_active (some cur) = .ok true) :
    p.matchCmd (some cur) input =
      if input.length < p.argnames.length then .ok none
      else if input.take p.lead.length ≠ p.lead then .ok none
      else if (input.drop p.lead.length).isEmpty && p.pattern.isEmpty then
        .ok (some [])
      else if (input.drop p.lead.length).isEmpty != p.pattern.isEmpty then
        .ok none
      else
        .ok ((wordCombinations
            ((input.drop p.lead.length).length - p.fixed)
            p.placeholders).findSome?
          (fun combo =>
            (tryCombo p.pattern combo (input.drop p.lead.length) []).map
              finalizeCaptures)) := by
  rw [Pattern.matchCmd, hact]

/-! ## Claim theorem (matcher) -/

/-- C1 (confirmed): for a compiled pattern with the current context set,
`match` returns no-match when the pattern is inactive, when fewer input
words than placeholders are given, or when the leading input words do not
equal the prefix; after stripping the prefix it returns the empty mapping
when both remaining tokens and remaining input are empty, and no-match when
exactly one is empty; otherwise it tries the allocator's tuples for
`len(remainingInput) − fixed` words over the placeholders in order, each
placeholder consuming its allotted words joined by single spaces and each
literal requiring exact equality, and the first allocation consuming every
token with the input exhausted in lockstep yields the mapping — no-match if
none succeeds.  In particular `"put ITEM in CONTAINER"` matches the
spec's example input with `item = "a rusty key"`,
`container = "the old chest"`. -/
theorem claim_C1 (t : Str) (ctx : Option Str) (p : Pattern) (cur : Str)
    (input : List Str) (h : Pattern.compile t ctx = .ok p) :
    (p.is_active (some cur) = .ok false →
      p.matchCmd (some cur) input = .ok none)
    ∧ (p.is_active (some cur) = .ok true →
      input.length < p.placeholders →
      p.matchCmd (some cur) input = .ok none)
    ∧ (p.is_active (some cur) = .ok true → ¬ p.lead <+: input →
      p.matchCmd (some cur) input = .ok none)
    ∧ (p.is_active (some cur) = .ok true → p.lead <+: input →
      ¬ input.length < p.placeholders →
      input.drop p.lead.length = [] → p.pattern = [] →
      p.matchCmd (some cur) input = .ok (some []))
    ∧ (p.is_active (some cur) = .ok true → p.lead <+: input →
      ¬ input.length < p.placeholders →
      ((input.drop p.lead.length = [] ∧ p.pattern ≠ []) ∨
        (input.drop p.lead.length ≠ [] ∧ p.pattern = [])) →
      p.matchCmd (some cur) input = .ok none)
    ∧ (p.is_active (some cur) = .ok true → p.lead <+: input →
      ¬ input.length < p.placeholders →
      input.drop p.lead.length ≠ [] → p.pattern ≠ [] →
      p.matchCmd (some cur) input =
        .ok ((wordCombinations
            ((input.drop p.lead.length).length - p.fixed)
            p.placeholders).findSome?
          (fun combo =>
            tryAllocSpec p.pattern combo (input.drop p.lead.length) [])))
    ∧ putPattern.matchCmd (some (strL "default"))
        [strL "put", strL "a", strL "rusty", strL "key", strL "in",
         strL "the", strL "old", strL "chest"] =
      .ok (some [(strL "item", strL "a rusty key"),
                 (strL "container", strL "the old chest")]) := by
  have han := wf_argnames_length h
  refine ⟨?_, ?_, ?_, ?_, ?_, ?_, by decide⟩
  · intro hact
    exact matchCmd_inactive p cur input hact
  · intro hact hlen
    rw [matchCmd_active p cur input hact, han, if_pos hlen]
  · intro hact hnp
    rw [matchCmd_active p cur input hact]
    by_cases hlen : input.length < p.argnames.length
    · rw [if_pos hlen]
    · rw [if_neg hlen,
        if_pos (fun heq : input.take p.lead.length = p.lead =>
          hnp (List.prefix_iff_eq_take.mpr heq.symm))]
  · intro hact hpre hlen hiw hpat
    have heq : p.lead = input.take p.lead.length :=
      List.prefix_iff_eq_take.mp hpre
    rw [matchCmd_active p cur input hact, han, if_neg hlen,
      if_neg (fun hc : ¬ _ = _ => hc heq.symm),
      if_pos (by rw [hiw, hpat]; rfl)]
  · intro hact hpre hlen hcase
    have heq : p.lead = input.take p.lead.length :=
      List.prefix_iff_eq_take.mp hpre
    rw [matchCmd_active p cur input hact, han, if_neg hlen,
      if_neg (fun hc : ¬ _ = _ => hc heq.symm)]
    rcases hcase with ⟨hiw, hpat⟩ | ⟨hiw, hpat⟩
    · rw [if_neg (by
        rw [List.isEmpty_iff.mpr hiw,
          Bool.eq_false_iff.mpr (fun hc => hpat (List.isEmpty_iff.mp hc))]
        simp),
        if_pos (by
          rw [List.isEmpty_iff.mpr hiw,
            Bool.eq_false_iff.mpr (fun hc => hpat (List.isEmpty_iff.mp hc))]
          rfl)]
    · rw [if_neg (by
        rw [List.isEmpty_iff.mpr hpat,
          Bool.eq_false_iff.mpr (fun hc => hiw (List.isEmpty_iff.mp hc))]
        simp),
        if_pos (by
          rw [List.isEmpty_iff.mpr hpat,
            Bool.eq_false_iff.mpr (fun hc => hiw (List.isEmpty_iff.mp hc))]
          rfl)]
  · intro hact hpre hlen hiw hpat
    have heq : p.lead = input.take p.lead.length :=
      List.prefix_iff_eq_take.mp hpre
    have hiwE : (input.drop p.lead.length).isEmpty = false :=
      Bool.eq_false_iff.mpr (fun hc => hiw (List.isEmpty_iff.mp hc))
    have hpatE : p.pattern.isEmpty = false :=
      Bool.eq_false_iff.mpr (fun hc => hpat (List.isEmpty_iff.mp hc))
    rw [matchCmd_active p cur input hact, han, if_neg hlen,
      if_neg (fun hc : ¬ _ = _ => hc heq.symm),
      if_neg (by rw [hiwE, hpatE]; simp),
      if_neg (by rw [hiwE, hpatE]; simp)]
    have hph1 : 1 ≤ p.placeholders := by
      rw [← wf_countPh h]
      exact wf_first_ph h hpat
    congr 1
    apply findSome?_congr
    intro combo hmem
    have hge : ¬ ((input.drop p.lead.length).length - p.fixed <
        p.placeholders) := by
      intro hlt
      rw [wc_nil_of_lt hlt] at hmem
      exact absurd hmem (List.not_mem_nil _)
    obtain ⟨hclen, hcsum, -⟩ := wc_mem_spec p.placeholders _ combo hmem
    exact tryCombo_eq_spec p.pattern combo (input.drop p.lead.length) []
      (by rw [hclen, ← wf_countPh h])
      (by rw [hcsum, wf_fixed h]; omega)

/-- C1 witness: the worked example — `"put ITEM in CONTAINER"` against
`["put","a","rusty","key","in","the","old","chest"]`. -/
theorem claim_C1_witness :
    putPattern.matchCmd (some (strL "default"))
      [strL "put", strL "a", strL "rusty", strL "key", strL "in",
       strL "the", strL "old", strL "chest"] =
      .ok (some [(strL "item", strL "a rusty key"),
                 (strL "container", strL "the old chest")]) :=
  (claim_C1 (strL "put ITEM in CONTAINER") (some (strL "default"))
    putPattern (strL "default")
    [strL "put", strL "a", strL "rusty", strL "key", strL "in",
     strL "the", strL "old", strL "chest"] (by rfl)).2.2.2.2.2.2

end Adventurelib
